import Mathlib

/-!
Verification of the harb heap-dump analyzer (src/main.cc) against its
natural-language specification.

The command layer in src/main.cc is embedded shallowly: the heap store is a
list of object records keyed by 64-bit address, lookups mirror
`Graph::get_heap_object` (first occurrence wins, matching the build rule that
duplicate ids are rejected), and each command becomes a total Lean function
returning an explicit outcome value.  Parts of the repository that are not in
src/ (ruby_heap_obj.h, graph.cc, the Parser) are modelled from the spec; each
such definition carries a doc comment starting with "Modelled from the spec:".
-/

set_option maxHeartbeats 1000000

namespace Harb

/-! ## Definitions: the shallow embedding of src/main.cc and the
spec-modelled collaborators -/

/-- A heap object record: address (identity), coarse type tag, memory size,
root flag, and the ordered list of referenced addresses (`out_refs`,
duplicates permitted, dangling ids permitted). -/
structure RubyHeapObj where
  addr : Nat
  type : Nat
  memsize : Nat
  is_root : Bool
  refs : List Nat
  deriving DecidableEq, Repr

/-- The graph owns all heap object records, in insertion order. -/
structure Graph where
  store : List RubyHeapObj
  deriving DecidableEq, Repr

/-- `Graph::get_heap_object`: look an address up in the store.  The first
record with that address wins, matching the build invariant that a duplicate
id is rejected at insertion. -/
def get_heap_object (g : Graph) (a : Nat) : Option RubyHeapObj :=
  g.store.find? (fun o => o.addr == a)

/-- One resolved reference hop: `a`'s record lists `b` among its `out_refs`
and `b` resolves to a stored object. -/
def edgeB (g : Graph) (a b : Nat) : Bool :=
  match get_heap_object g a with
  | none => false
  | some o => decide (b ∈ o.refs) && (get_heap_object g b).isSome

/-- A walk of exactly `n` resolved reference hops from `a` to `c`. -/
inductive WalkN (g : Graph) : Nat → Nat → Nat → Prop where
  | refl (a : Nat) : WalkN g a a 0
  | step {a b c : Nat} {n : Nat} :
      edgeB g a b = true → WalkN g b c n → WalkN g a c (n + 1)

/-- The address `r` is a stored, root-flagged object. -/
def isRootAddr (g : Graph) (r : Nat) : Prop :=
  ∃ o, get_heap_object g r = some o ∧ o.is_root = true

/-! ## Summary engine (`cmd_summary`, src/main.cc lines 73-95) -/
/-- Read the accumulated total for a type tag out of the per-type map
(an association list; `sparse_hash_map` access with default 0). -/
def typeMapGet (m : List (Nat × Nat)) (t : Nat) : Nat :=
  match m.find? (fun e => e.1 == t) with
  | some e => e.2
  | none => 0

/-- Store a value for a type tag (`type_map[type] = v`): replace the entry if
the tag is present, append a fresh entry otherwise. -/
def typeMapPut (m : List (Nat × Nat)) (t v : Nat) : List (Nat × Nat) :=
  match m with
  | [] => [(t, v)]
  | e :: rest => if e.1 == t then (t, v) :: rest else e :: typeMapPut rest t v

/-- One iteration of the `each_heap_object` lambda in `cmd_summary`: add the
object's memsize to the running total and, mirroring the C++
`if (type_map[type]) ... else ...`, either add to or initialize the
per-type accumulator. -/
def summaryStep (acc : Nat × List (Nat × Nat)) (o : RubyHeapObj) : Nat × List (Nat × Nat) :=
  let total := acc.1 + o.memsize
  let cur := typeMapGet acc.2 o.type
  if cur ≠ 0 then (total, typeMapPut acc.2 o.type (cur + o.memsize))
  else (total, typeMapPut acc.2 o.type o.memsize)

/-- `cmd_summary`: the grand total of memsize and the per-type breakdown. -/
def cmd_summary (g : Graph) : Nat × List (Nat × Nat) :=
  g.store.foldl summaryStep (0, [])

/-- The sum of `size_bytes` over all stored objects with a given type tag. -/
def typeSum (g : Graph) (t : Nat) : Nat :=
  ((g.store.filter (fun o => o.type == t)).map (fun o => o.memsize)).sum

/-- The grand total of `size_bytes` over all stored objects. -/
def totalMemsize (g : Graph) : Nat :=
  (g.store.map (fun o => o.memsize)).sum

/-! ## Diff engine (`cmd_diff`, src/main.cc lines 111-147) -/
/-- Modelled from the spec: the Parser (parser.h, absent from src/) drives a
callback once per record of the second snapshot's stream and exposes, for
each record, the resolved object fields and the record's original serialized
text (`current_heap_object_json`).  A record stream is modelled as the list
of these pairs in stream order. -/
structure HeapRecord where
  obj : RubyHeapObj
  json : String
  deriving DecidableEq, Repr

/-- The emission test of the `cmd_diff` callback:
`!obj->is_root_object() && graph_->get_heap_object(obj->get_addr()) == NULL`. -/
def diffEmit (g : Graph) (r : HeapRecord) : Bool :=
  !r.obj.is_root && (get_heap_object g r.obj.addr).isNone

/-- `cmd_diff`: run the second-snapshot stream through the callback,
collecting the serialized text of every record that passes the emission
test, in stream order. -/
def cmd_diff (g : Graph) (stream : List HeapRecord) : List String :=
  stream.foldl (fun out r => if diffEmit g r then out ++ [r.json] else out) []

/-! ## Root-path finder (`cmd_rootpath`, src/main.cc lines 225-272) -/
/-- Modelled from the spec: `RubyHeapObj::get_refs_from` (ruby_heap_obj.h,
absent from src/) — per the spec the root-path BFS traverses the dequeued
node's outgoing references (`out_refs`), in declaration order, duplicates
kept; a dangling reference (target id absent from the store) is never
resolvable to a node, so resolution yields the stored objects of the
resolvable targets. -/
def get_refs_from (g : Graph) (o : RubyHeapObj) : List RubyHeapObj :=
  o.refs.filterMap (get_heap_object g)

/-- The inner `for (auto ref : *(cur->get_refs_from()))` loop of
`cmd_rootpath`: scan the dequeued node's resolved references; an unvisited
reference is marked visited and recorded in the predecessor map, then either
terminates the search (root-flagged) or is enqueued.  Returns the updated
visited set, predecessor map and queue, and the discovered root if any. -/
def scanRefs (cur : RubyHeapObj) :
    List RubyHeapObj → List Nat → List (Nat × Nat) → List RubyHeapObj →
    List Nat × List (Nat × Nat) × List RubyHeapObj × Option RubyHeapObj
  | [], visited, parent, q => (visited, parent, q, none)
  | ref :: rest, visited, parent, q =>
      if ref.addr ∈ visited then scanRefs cur rest visited parent q
      else
        let visited' := ref.addr :: visited
        let parent' := (ref.addr, cur.addr) :: parent
        if ref.is_root then (visited', parent', q, some ref)
        else scanRefs cur rest visited' parent' (q ++ [ref])

/-- The result of the BFS work loop: either a discovered root together with
the predecessor map at that moment, or queue exhaustion ("no path"). -/
inductive BfsResult where
  | foundRoot (r : RubyHeapObj) (parent : List (Nat × Nat))
  | noPath
  deriving Repr

/-- The `while (!q.empty() && !found)` loop of `cmd_rootpath`.  `fuel` bounds
the number of dequeue iterations; `none` means the fuel ran out (shown below
never to happen with fuel = number of stored objects, since every node is
enqueued at most once). -/
def bfsAux (g : Graph) :
    Nat → List RubyHeapObj → List Nat → List (Nat × Nat) → Option BfsResult
  | _, [], _, _ => some .noPath
  | 0, _ :: _, _, _ => none
  | fuel + 1, cur :: qrest, visited, parent =>
      match scanRefs cur (get_refs_from g cur) visited parent qrest with
      | (_, parent', _, some r) => some (.foundRoot r parent')
      | (visited', parent', q', none) => bfsAux g fuel q' visited' parent'

/-- The path-reporting loop `while (cur != NULL) { print; cur = parent[cur] }`:
follow the predecessor map from the discovered root back to the start node
(which has no predecessor entry), listing addresses in root-to-start order. -/
def walkParent (parent : List (Nat × Nat)) : Nat → Nat → List Nat
  | 0, _ => []
  | fuel + 1, a =>
      match parent.find? (fun e => e.1 == a) with
      | none => [a]
      | some e => a :: walkParent parent fuel e.2

/-- Outcome of the `rootpath` command. -/
inductive RootPathOutcome where
  | unknownId
  | noPath (a : Nat)
  | path (seq : List Nat)
  deriving DecidableEq, Repr

/-- `cmd_rootpath`: resolve the argument, run the BFS seeded with the start
node already visited, and on success report the predecessor chain from the
discovered root, in root-to-start order.  The outer `none` is the
fuel-exhaustion marker of `bfsAux`, proved unreachable below. -/
def cmd_rootpath (g : Graph) (a : Nat) : Option RootPathOutcome :=
  match get_heap_object g a with
  | none => some .unknownId
  | some obj =>
      match bfsAux g g.store.length [obj] [obj.addr] [] with
      | none => none
      | some .noPath => some (.noPath obj.addr)
      | some (.foundRoot r parent) =>
          some (.path (walkParent parent (parent.length + 1) r.addr))

/-! ### BFS correctness invariants -/
/-- Adjacent queue entries of a BFS differ in depth by at most one and are
nondecreasing. -/
def depthRel (x y : Nat) : Prop := x ≤ y ∧ y ≤ x + 1

/-- Loop invariant of the BFS work loop, with a ghost depth assignment `D`
for the visited addresses. -/
structure BfsInv (g : Graph) (s : RubyHeapObj) (q : List RubyHeapObj)
    (visited : List Nat) (parent : List (Nat × Nat)) (D : Nat → Nat) : Prop where
  startMem : s.addr ∈ visited
  startDepth : D s.addr = 0
  canonQ : ∀ o ∈ q, get_heap_object g o.addr = some o
  qVisited : ∀ o ∈ q, o.addr ∈ visited
  visitedWalk : ∀ a ∈ visited, WalkN g s.addr a (D a)
  visitedNoRoot : ∀ a ∈ visited, a ≠ s.addr →
    ∀ o, get_heap_object g a = some o → o.is_root = false
  visitedCanon : ∀ a ∈ visited, ∃ o, get_heap_object g a = some o
  parentChain : ∀ a ∈ visited, a ≠ s.addr →
    ∃ p, List.find? (fun e => e.1 == a) parent = some (a, p) ∧ p ∈ visited ∧
      D a = D p + 1 ∧ edgeB g p a = true
  parentKeys : ∀ e ∈ parent, e.1 ∈ visited ∧ e.1 ≠ s.addr
  depthBound : ∀ a ∈ visited, D a ≤ parent.length
  expanded : ∀ a ∈ visited, (∀ o ∈ q, o.addr ≠ a) →
    ∀ b, edgeB g a b = true → b ∈ visited ∧ D b ≤ D a + 1
  visitedDepth : ∀ a ∈ visited, ∀ o ∈ q, D a ≤ D o.addr + 1
  qDepths : List.Pairwise depthRel (q.map (fun o => D o.addr))

/-- Invariant of the reference scan of one dequeued node `cur` at depth `d`:
`rest` is the not-yet-scanned suffix of `cur`'s resolved references. -/
structure ScanInv (g : Graph) (s cur : RubyHeapObj) (d : Nat)
    (rest : List RubyHeapObj) (visited : List Nat) (parent : List (Nat × Nat))
    (q : List RubyHeapObj) (D : Nat → Nat) : Prop where
  startMem : s.addr ∈ visited
  startDepth : D s.addr = 0
  curCanon : get_heap_object g cur.addr = some cur
  curMem : cur.addr ∈ visited
  curDepth : D cur.addr = d
  restEdges : ∀ o ∈ rest, get_heap_object g o.addr = some o ∧ edgeB g cur.addr o.addr = true
  canonQ : ∀ o ∈ q, get_heap_object g o.addr = some o
  qVisited : ∀ o ∈ q, o.addr ∈ visited
  visitedWalk : ∀ a ∈ visited, WalkN g s.addr a (D a)
  visitedNoRoot : ∀ a ∈ visited, a ≠ s.addr →
    ∀ o, get_heap_object g a = some o → o.is_root = false
  visitedCanon : ∀ a ∈ visited, ∃ o, get_heap_object g a = some o
  parentChain : ∀ a ∈ visited, a ≠ s.addr →
    ∃ p, List.find? (fun e => e.1 == a) parent = some (a, p) ∧ p ∈ visited ∧
      D a = D p + 1 ∧ edgeB g p a = true
  parentKeys : ∀ e ∈ parent, e.1 ∈ visited ∧ e.1 ≠ s.addr
  depthBound : ∀ a ∈ visited, D a ≤ parent.length
  visitedDepthLe : ∀ a ∈ visited, D a ≤ d + 1
  qDepthLo : ∀ o ∈ q, d ≤ D o.addr
  qDepthHi : ∀ o ∈ q, D o.addr ≤ d + 1
  qDepths : List.Pairwise depthRel (q.map (fun o => D o.addr))
  curExpanded : ∀ b, edgeB g cur.addr b = true →
    (∃ o ∈ rest, o.addr = b) ∨ (b ∈ visited ∧ D b ≤ d + 1)
  othersExpanded : ∀ a ∈ visited, a ≠ cur.addr → (∀ o ∈ q, o.addr ≠ a) →
    ∀ b, edgeB g a b = true → b ∈ visited ∧ D b ≤ D a + 1

/-- Everything the final theorems need about a successful BFS: the discovered
root, the predecessor map at discovery time, and the minimality of the
discovery depth. -/
def SuccessState (g : Graph) (s r : RubyHeapObj) (parent : List (Nat × Nat)) : Prop :=
  ∃ (D : Nat → Nat) (visited : List Nat),
    get_heap_object g r.addr = some r ∧ r.is_root = true ∧ r.addr ≠ s.addr ∧
    r.addr ∈ visited ∧ s.addr ∈ visited ∧ D s.addr = 0 ∧
    (∀ a ∈ visited, a ≠ s.addr →
      ∃ p, List.find? (fun e => e.1 == a) parent = some (a, p) ∧ p ∈ visited ∧
        D a = D p + 1 ∧ edgeB g p a = true) ∧
    List.find? (fun e => e.1 == s.addr) parent = none ∧
    (∀ a ∈ visited, D a ≤ parent.length) ∧
    WalkN g s.addr r.addr (D r.addr) ∧
    (∀ n b, isRootAddr g b → b ≠ s.addr → WalkN g s.addr b n → D r.addr ≤ n)

/-- No root-flagged node other than the start is reachable from the start by
resolved outgoing references. -/
def NoRootReachable (g : Graph) (s : RubyHeapObj) : Prop :=
  ¬ ∃ n b, isRootAddr g b ∧ b ≠ s.addr ∧ WalkN g s.addr b n

/-! ### Concrete graphs used by witnesses and the counterexample -/
/-- Witness graph: root 1; node 2 references 3 then 1; node 3 references
nothing.  `rootpath 2` succeeds with the one-hop path `[1, 2]`. -/
def gWitness : Graph :=
  ⟨[⟨1, 0, 8, true, []⟩, ⟨2, 0, 8, false, [3, 1]⟩, ⟨3, 0, 8, false, []⟩]⟩

/-- Counterexample graph: the queried node 1 is itself root-flagged and
references root 2. -/
def gRootStart : Graph := ⟨[⟨1, 0, 8, true, [2]⟩, ⟨2, 0, 8, true, []⟩]⟩

/-- A single isolated root-flagged node with no references. -/
def gSolo : Graph := ⟨[⟨7, 0, 16, true, []⟩]⟩

/-! ## Dominance queries (`cmd_idom` and `cmd_dominators`,
src/main.cc lines 183-223) -/
/-- A node reachable from the synthetic SUPER_ROOT: a root-flagged node, or
any node reachable from one along resolved outgoing references. -/
def ReachableFromRoot (g : Graph) (a : Nat) : Prop :=
  ∃ r n, isRootAddr g r ∧ WalkN g r a n

/-- Modelled from the spec: the Dominator Index built by graph.cc (absent
from src/).  The spec defines `idom` as a partial map "defined for every
node reachable from SUPER_ROOT except SUPER_ROOT itself" (SUPER_ROOT is not
a stored node), with `get_idom` returning null exactly on undefined
entries; this contract records that definedness boundary for the index
function handed to the commands. -/
def IdomIndexWf (g : Graph) (idom : Nat → Option Nat) : Prop :=
  ∀ a o, get_heap_object g a = some o →
    ((idom a).isSome ↔ ReachableFromRoot g a)

/-- Modelled from the spec: `get_dominators` / `dominated_set` (graph.cc,
absent from src/) "fails/returns empty for root or unreachable node,
matching `immediate_dominator`". -/
def DomSetWf (g : Graph) (domSet : Nat → List Nat) : Prop :=
  ∀ a, ¬ ReachableFromRoot g a → domSet a = []

/-- Outcome of the `idom` command. -/
inductive IdomOutcome where
  | unknownId
  | undefinedForRoot
  | noDominator
  | dominator (d : Nat)
  deriving DecidableEq, Repr

/-- `cmd_idom`: resolve the argument; return silently for a root object
(the operation is undefined there); report "could not determine dominator"
when the index has no entry; otherwise report the dominator. -/
def cmd_idom (g : Graph) (idom : Nat → Option Nat) (a : Nat) : IdomOutcome :=
  match get_heap_object g a with
  | none => .unknownId
  | some o =>
      if o.is_root then .undefinedForRoot
      else
        match idom a with
        | none => .noDominator
        | some d => .dominator d

/-- Outcome of the `dominators` command. -/
inductive DomSetOutcome where
  | unknownId
  | undefinedForRoot
  | emptySet
  | dominated (l : List Nat)
  deriving DecidableEq, Repr

/-- `cmd_dominators`: resolve the argument; return silently for a root
object; report "does not dominate any objects" on an empty set, otherwise
the dominated objects. -/
def cmd_dominators (g : Graph) (domSet : Nat → List Nat) (a : Nat) : DomSetOutcome :=
  match get_heap_object g a with
  | none => .unknownId
  | some o =>
      if o.is_root then .undefinedForRoot
      else
        match domSet a with
        | [] => .emptySet
        | l => .dominated l

/-- A dominator index for `gWitness` satisfying the spec contract: only
node 1 (the root, reachable from SUPER_ROOT) has an entry. -/
def idomW : Nat → Option Nat := fun a => if a = 1 then some 0 else none

/-- The trivially empty dominated-set function. -/
def domSetW : Nat → List Nat := fun _ => []

/-! ## Startup and the command loop (`main` and `execute_command`,
src/main.cc lines 274-352) -/
/-- A parsed interactive command with its resolved argument.  A `diffCmd`
carries `none` when the named dump file cannot be opened. -/
inductive Cmd where
  | quit
  | help
  | printCmd (a : Nat)
  | idomCmd (a : Nat)
  | dominatorsCmd (a : Nat)
  | rootpathCmd (a : Nat)
  | summaryCmd
  | diffCmd (target : Option (List HeapRecord))
  | unknownCmd (s : String)
  deriving DecidableEq, Repr

/-- The observable outcome of one command: every query-time failure is a
distinct reported value. -/
inductive CmdOutcome where
  | quitOk
  | helpShown
  | printUnknownId
  | printed (a : Nat)
  | idomReport (r : IdomOutcome)
  | dominatorsReport (r : DomSetOutcome)
  | rootpathReport (r : Option RootPathOutcome)
  | summaryReport (total : Nat) (perType : List (Nat × Nat))
  | diffOpenError
  | diffReport (lines : List String)
  | unknownCommand (s : String)
  deriving DecidableEq, Repr

/-- `execute_command`: dispatch one command against the immutable graph (and
the dominator index functions).  Total — no branch aborts the process. -/
def execute_command (g : Graph) (idom : Nat → Option Nat)
    (domSet : Nat → List Nat) : Cmd → CmdOutcome
  | .quit => .quitOk
  | .help => .helpShown
  | .printCmd a =>
      match get_heap_object g a with
      | none => .printUnknownId
      | some o => .printed o.addr
  | .idomCmd a => .idomReport (cmd_idom g idom a)
  | .dominatorsCmd a => .dominatorsReport (cmd_dominators g domSet a)
  | .rootpathCmd a => .rootpathReport (cmd_rootpath g a)
  | .summaryCmd => .summaryReport (cmd_summary g).1 (cmd_summary g).2
  | .diffCmd none => .diffOpenError
  | .diffCmd (some stream) => .diffReport (cmd_diff g stream)
  | .unknownCmd s => .unknownCommand s

/-- The REPL of `main`: execute commands one at a time until `quit` sets the
exit flag. -/
def session (g : Graph) (idom : Nat → Option Nat) (domSet : Nat → List Nat) :
    List Cmd → List CmdOutcome
  | [] => []
  | c :: rest =>
      let o := execute_command g idom domSet c
      if c = Cmd.quit then [o] else o :: session g idom domSet rest

/-- Startup (`main`): `none` models a missing dump-file argument, `some
none` a primary snapshot that cannot be opened — the two `fatal_error`
paths; with an opened snapshot the graph is built and the REPL runs. -/
def startup (arg : Option (Option Graph)) : Except String Graph :=
  match arg with
  | none => .error "objectspace json dump file required"
  | some none => .error "unable to open heap dump"
  | some (some g) => .ok g

/-! ### Witness for the diff claim -/
/-- Witness stream for the diff: one record whose id is already in
`gWitness`, one new non-root record, one new root-flagged record. -/
def diffStreamW : List HeapRecord :=
  [⟨⟨1, 0, 8, true, []⟩, "line-one"⟩,
   ⟨⟨9, 0, 8, false, []⟩, "line-nine"⟩,
   ⟨⟨10, 0, 8, true, []⟩, "line-ten"⟩]

/-! ## Theorems -/

theorem get_heap_object_addr {g : Graph} {a : Nat} {o : RubyHeapObj}
    (h : get_heap_object g a = some o) : o.addr = a := by
  have := List.find?_some h
  simpa using this

theorem get_heap_object_mem {g : Graph} {a : Nat} {o : RubyHeapObj}
    (h : get_heap_object g a = some o) : o ∈ g.store :=
  List.mem_of_find?_eq_some h

/-- A looked-up object is canonical: looking its own address up returns it. -/
theorem get_heap_object_canon {g : Graph} {a : Nat} {o : RubyHeapObj}
    (h : get_heap_object g a = some o) : get_heap_object g o.addr = some o := by
  rw [get_heap_object_addr h]; exact h

theorem edgeB_elim {g : Graph} {a b : Nat} (h : edgeB g a b = true) :
    ∃ o o', get_heap_object g a = some o ∧ b ∈ o.refs ∧ get_heap_object g b = some o' := by
  unfold edgeB at h
  cases hg : get_heap_object g a with
  | none => rw [hg] at h; simp at h
  | some o =>
      rw [hg] at h
      simp only [Bool.and_eq_true, decide_eq_true_eq, Option.isSome_iff_exists] at h
      obtain ⟨hb, o', ho'⟩ := h
      exact ⟨o, o', rfl, hb, ho'⟩

theorem edgeB_intro {g : Graph} {a b : Nat} {o o' : RubyHeapObj}
    (ha : get_heap_object g a = some o) (hb : b ∈ o.refs)
    (hb' : get_heap_object g b = some o') : edgeB g a b = true := by
  unfold edgeB
  rw [ha]
  simp only [Bool.and_eq_true, decide_eq_true_eq]
  exact ⟨hb, by rw [hb']; rfl⟩

theorem WalkN.snoc {g : Graph} {a b c : Nat} {n : Nat}
    (w : WalkN g a b n) (h : edgeB g b c = true) : WalkN g a c (n + 1) := by
  induction w with
  | refl a => exact WalkN.step h (WalkN.refl c)
  | step e _ ih => exact WalkN.step e (ih h)

theorem WalkN.zero_eq {g : Graph} {a b : Nat} (w : WalkN g a b 0) : a = b := by
  cases w; rfl

theorem WalkN.succ_elim {g : Graph} {a c : Nat} {n : Nat}
    (w : WalkN g a c (n + 1)) : ∃ b, WalkN g a b n ∧ edgeB g b c = true := by
  induction n generalizing a with
  | zero =>
      cases w with
      | step e w' => cases w'; exact ⟨a, WalkN.refl a, e⟩
  | succ m ih =>
      cases w with
      | step e w' =>
          obtain ⟨b, wb, hb⟩ := ih w'
          exact ⟨b, WalkN.step e wb, hb⟩

theorem typeMapGet_nil (t : Nat) : typeMapGet [] t = 0 := rfl

theorem typeMapGet_cons (e : Nat × Nat) (rest : List (Nat × Nat)) (t : Nat) :
    typeMapGet (e :: rest) t = if e.1 = t then e.2 else typeMapGet rest t := by
  by_cases h : e.1 = t
  · rw [if_pos h]
    unfold typeMapGet
    rw [List.find?_cons_of_pos _ (by simpa using h)]
  · rw [if_neg h]
    unfold typeMapGet
    rw [List.find?_cons_of_neg _ (by simpa using h)]

theorem typeMapGet_put_self (m : List (Nat × Nat)) (t v : Nat) :
    typeMapGet (typeMapPut m t v) t = v := by
  induction m with
  | nil => simp [typeMapPut, typeMapGet_cons, typeMapGet_nil]
  | cons e rest ih =>
      by_cases h : e.1 = t
      · simp [typeMapPut, h, typeMapGet_cons]
      · simp only [typeMapPut, beq_iff_eq, h, if_false]
        rw [typeMapGet_cons, if_neg h]
        exact ih

theorem typeMapGet_put_other (m : List (Nat × Nat)) (t t' v : Nat) (h : t' ≠ t) :
    typeMapGet (typeMapPut m t v) t' = typeMapGet m t' := by
  induction m with
  | nil =>
      simp only [typeMapPut]
      rw [typeMapGet_cons, if_neg (fun he => h he.symm)]
  | cons e rest ih =>
      by_cases he : e.1 = t
      · subst he
        simp only [typeMapPut, beq_self_eq_true, if_true]
        rw [typeMapGet_cons, typeMapGet_cons, if_neg (fun he' => h he'.symm),
          if_neg (fun he' => h he'.symm)]
      · simp only [typeMapPut, beq_iff_eq, he, if_false]
        rw [typeMapGet_cons, typeMapGet_cons]
        by_cases he' : e.1 = t'
        · rw [if_pos he', if_pos he']
        · rw [if_neg he', if_neg he']
          exact ih

theorem typeMapPut_sum (m : List (Nat × Nat)) (t v : Nat) :
    ((typeMapPut m t v).map Prod.snd).sum + typeMapGet m t = (m.map Prod.snd).sum + v := by
  induction m with
  | nil => simp [typeMapPut, typeMapGet_nil]
  | cons e rest ih =>
      by_cases h : e.1 = t
      · simp only [typeMapPut, beq_iff_eq, h, if_true, List.map_cons, List.sum_cons]
        rw [typeMapGet_cons, if_pos h]
        omega
      · simp only [typeMapPut, beq_iff_eq, h, if_false, List.map_cons, List.sum_cons]
        rw [typeMapGet_cons, if_neg h]
        omega

theorem summaryStep_snd (acc : Nat × List (Nat × Nat)) (o : RubyHeapObj) :
    (summaryStep acc o).2 = typeMapPut acc.2 o.type (typeMapGet acc.2 o.type + o.memsize) := by
  unfold summaryStep
  by_cases h : typeMapGet acc.2 o.type = 0 <;> simp [h]

theorem summaryStep_fst (acc : Nat × List (Nat × Nat)) (o : RubyHeapObj) :
    (summaryStep acc o).1 = acc.1 + o.memsize := by
  unfold summaryStep
  by_cases h : typeMapGet acc.2 o.type = 0 <;> simp [h]

theorem summary_fold (l : List RubyHeapObj) :
    ∀ acc : Nat × List (Nat × Nat),
      (l.foldl summaryStep acc).1 = acc.1 + (l.map (fun o => o.memsize)).sum
      ∧ (∀ t, typeMapGet (l.foldl summaryStep acc).2 t
          = typeMapGet acc.2 t + ((l.filter (fun o => o.type == t)).map (fun o => o.memsize)).sum)
      ∧ ((l.foldl summaryStep acc).2.map Prod.snd).sum
          = (acc.2.map Prod.snd).sum + (l.map (fun o => o.memsize)).sum := by
  induction l with
  | nil => intro acc; simp
  | cons o rest ih =>
      intro acc
      obtain ⟨ih1, ih2, ih3⟩ := ih (summaryStep acc o)
      refine ⟨?_, ?_, ?_⟩
      · rw [List.foldl_cons, ih1, summaryStep_fst]
        simp [Nat.add_assoc]
      · intro t
        rw [List.foldl_cons, ih2 t, summaryStep_snd]
        by_cases ht : o.type = t
        · subst ht
          rw [typeMapGet_put_self]
          simp [Nat.add_assoc]
        · rw [typeMapGet_put_other _ _ _ _ (fun he => ht he.symm)]
          have : (o.type == t) = false := by simp [ht]
          simp [this]
      · rw [List.foldl_cons, ih3, summaryStep_snd]
        have hput := typeMapPut_sum acc.2 o.type (typeMapGet acc.2 o.type + o.memsize)
        simp only [List.map_cons, List.sum_cons]
        omega

/-- C4: `cmd_summary`'s per-type entry for each type tag equals the sum of
`size_bytes` over all stored objects with that tag, and the sum of all
per-type totals equals the grand total of `size_bytes` over the store, which
is also the reported total. -/
theorem summary_per_type_totals (g : Graph) :
    (∀ t, typeMapGet (cmd_summary g).2 t = typeSum g t)
    ∧ ((cmd_summary g).2.map Prod.snd).sum = totalMemsize g
    ∧ (cmd_summary g).1 = totalMemsize g := by
  obtain ⟨h1, h2, h3⟩ := summary_fold g.store (0, [])
  refine ⟨?_, ?_, ?_⟩
  · intro t
    have := h2 t
    simpa [cmd_summary, typeSum, typeMapGet_nil] using this
  · simpa [cmd_summary, totalMemsize] using h3
  · simpa [cmd_summary, totalMemsize] using h1

theorem cmd_diff_fold (g : Graph) (stream : List HeapRecord) :
    ∀ init : List String,
      stream.foldl (fun out r => if diffEmit g r then out ++ [r.json] else out) init
        = init ++ (stream.filter (diffEmit g)).map (fun r => r.json) := by
  induction stream with
  | nil => intro init; simp
  | cons r rest ih =>
      intro init
      rw [List.foldl_cons]
      by_cases h : diffEmit g r
      · rw [if_pos h, ih, List.filter_cons_of_pos h]
        simp
      · rw [if_neg h, ih, List.filter_cons_of_neg (by simpa using h)]

theorem cmd_diff_eq_filter (g : Graph) (stream : List HeapRecord) :
    cmd_diff g stream = (stream.filter (diffEmit g)).map (fun r => r.json) := by
  simpa using cmd_diff_fold g stream []

theorem cmd_diff_nodup (g : Graph) (stream : List HeapRecord)
    (hj : (stream.map (fun r => r.json)).Nodup) : (cmd_diff g stream).Nodup := by
  rw [cmd_diff_eq_filter]
  exact hj.sublist ((stream.filter_sublist).map (fun r => r.json))

theorem cmd_diff_mem (g : Graph) (stream : List HeapRecord) (s : String) :
    s ∈ cmd_diff g stream ↔ ∃ r ∈ stream, diffEmit g r = true ∧ r.json = s := by
  rw [cmd_diff_eq_filter]
  constructor
  · intro h
    obtain ⟨r, hr, hs⟩ := List.mem_map.mp h
    obtain ⟨hr', hp⟩ := List.mem_filter.mp hr
    exact ⟨r, hr', hp, hs⟩
  · rintro ⟨r, hr, hp, hs⟩
    exact List.mem_map.mpr ⟨r, List.mem_filter.mpr ⟨hr, hp⟩, hs⟩

/-- C3: `cmd_diff` reproduces, verbatim and in stream order, exactly the
records of the second snapshot that are not root-flagged and whose id is
absent from the primary store; a record whose id is present in the primary
store (or which is root-flagged) is never emitted, and a record present only
in the second snapshot and not root-flagged is emitted exactly once.
(The serialized forms of distinct records are assumed pairwise distinct, as
each dump line embeds its unique address.) -/
theorem diff_emits_new_nonroot_exactly (g : Graph) (stream : List HeapRecord)
    (hj : (stream.map (fun r => r.json)).Nodup) :
    cmd_diff g stream = (stream.filter (diffEmit g)).map (fun r => r.json)
    ∧ ∀ r ∈ stream,
        ((get_heap_object g r.obj.addr).isSome → r.json ∉ cmd_diff g stream)
        ∧ (r.obj.is_root = true → r.json ∉ cmd_diff g stream)
        ∧ (r.obj.is_root = false → get_heap_object g r.obj.addr = none →
            (cmd_diff g stream).count r.json = 1) := by
  refine ⟨cmd_diff_eq_filter g stream, ?_⟩
  intro r hr
  have hinj := List.inj_on_of_nodup_map hj
  have hnotem : diffEmit g r = false → r.json ∉ cmd_diff g stream := by
    intro hfalse hmem
    obtain ⟨r', hr', hp, hs⟩ := (cmd_diff_mem g stream r.json).mp hmem
    have : r' = r := hinj hr' hr hs
    rw [this, hfalse] at hp
    exact Bool.false_ne_true hp
  refine ⟨?_, ?_, ?_⟩
  · intro hsome
    refine hnotem ?_
    unfold diffEmit
    have h1 : (get_heap_object g r.obj.addr).isNone = false := by
      rcases Option.isSome_iff_exists.mp hsome with ⟨o, ho⟩
      rw [ho]; rfl
    rw [h1, Bool.and_false]
  · intro hroot
    refine hnotem ?_
    unfold diffEmit
    rw [hroot]
    rfl
  · intro hroot habsent
    have hp : diffEmit g r = true := by
      unfold diffEmit
      rw [hroot, habsent]
      rfl
    have hmem : r.json ∈ cmd_diff g stream :=
      (cmd_diff_mem g stream r.json).mpr ⟨r, hr, hp, rfl⟩
    exact List.count_eq_one_of_mem (cmd_diff_nodup g stream hj) hmem

theorem get_refs_from_canon {g : Graph} {o ref : RubyHeapObj}
    (h : ref ∈ get_refs_from g o) : get_heap_object g ref.addr = some ref := by
  obtain ⟨b, _, hb⟩ := List.mem_filterMap.mp h
  exact get_heap_object_canon hb

theorem get_refs_from_edge {g : Graph} {o ref : RubyHeapObj}
    (ho : get_heap_object g o.addr = some o) (h : ref ∈ get_refs_from g o) :
    edgeB g o.addr ref.addr = true := by
  obtain ⟨b, hb, hres⟩ := List.mem_filterMap.mp h
  have hba : ref.addr = b := get_heap_object_addr hres
  exact edgeB_intro ho (hba ▸ hb) (hba ▸ hres)

theorem edge_mem_get_refs_from {g : Graph} {o : RubyHeapObj} {b : Nat}
    (ho : get_heap_object g o.addr = some o) (h : edgeB g o.addr b = true) :
    ∃ ref ∈ get_refs_from g o, ref.addr = b := by
  obtain ⟨o', ob, ho', hb, hob⟩ := edgeB_elim h
  rw [ho] at ho'
  cases ho'
  exact ⟨ob, List.mem_filterMap.mpr ⟨b, hb, hob⟩, get_heap_object_addr hob⟩

/-! ### Termination of the BFS work loop -/
theorem nodup_store_length {g : Graph} {l : List Nat}
    (hn : l.Nodup) (hsub : ∀ a ∈ l, ∃ o ∈ g.store, o.addr = a) :
    l.length ≤ g.store.length := by
  classical
  have h1 : l.length = l.toFinset.card := (List.toFinset_card_of_nodup hn).symm
  have h2 : l.toFinset ⊆ (g.store.map (fun o => o.addr)).toFinset := by
    intro a ha
    rw [List.mem_toFinset] at ha ⊢
    obtain ⟨o, ho, hoa⟩ := hsub a ha
    exact List.mem_map.mpr ⟨o, ho, hoa⟩
  have h3 := Finset.card_le_card h2
  have h4 := List.toFinset_card_le (l := g.store.map (fun o => o.addr))
  rw [List.length_map] at h4
  omega

theorem scanRefs_lite (g : Graph) (cur : RubyHeapObj) :
    ∀ (rest : List RubyHeapObj) (visited : List Nat) (parent : List (Nat × Nat))
      (q : List RubyHeapObj),
      (∀ o ∈ rest, get_heap_object g o.addr = some o) →
      (∀ o ∈ q, get_heap_object g o.addr = some o ∧ o.addr ∈ visited) →
      visited.Nodup →
      (∀ a ∈ visited, ∃ o ∈ g.store, o.addr = a) →
      (match scanRefs cur rest visited parent q with
       | (visited', _, q', none) =>
           visited'.Nodup
           ∧ (∀ a ∈ visited', ∃ o ∈ g.store, o.addr = a)
           ∧ (∀ o ∈ q', get_heap_object g o.addr = some o ∧ o.addr ∈ visited')
           ∧ visited'.length + q.length = visited.length + q'.length
       | (_, _, _, some _) => True) := by
  intro rest
  induction rest with
  | nil =>
      intro visited parent q _ hq hnd hsub
      simp only [scanRefs]
      exact ⟨hnd, hsub, hq, by simp⟩
  | cons ref rest ih =>
      intro visited parent q hrest hq hnd hsub
      have hrefc : get_heap_object g ref.addr = some ref := hrest ref (by simp)
      have hrest' : ∀ o ∈ rest, get_heap_object g o.addr = some o := by
        intro o ho; exact hrest o (by simp [ho])
      by_cases hv : ref.addr ∈ visited
      · rw [scanRefs, if_pos hv]
        exact ih visited parent q hrest' hq hnd hsub
      · rw [scanRefs, if_neg hv]
        by_cases hr : ref.is_root
        · simp only [hr, if_true]
        · simp only [hr, Bool.false_eq_true, if_false]
          have hq' : ∀ o ∈ q ++ [ref],
              get_heap_object g o.addr = some o ∧ o.addr ∈ ref.addr :: visited := by
            intro o ho
            rcases List.mem_append.mp ho with h | h
            · obtain ⟨hc, hm⟩ := hq o h
              exact ⟨hc, by simp [hm]⟩
            · simp only [List.mem_singleton] at h
              subst h
              exact ⟨hrefc, by simp⟩
          have hnd' : (ref.addr :: visited).Nodup := List.nodup_cons.mpr ⟨hv, hnd⟩
          have hsub' : ∀ a ∈ ref.addr :: visited, ∃ o ∈ g.store, o.addr = a := by
            intro a ha
            rcases List.mem_cons.mp ha with h | h
            · subst h
              exact ⟨ref, get_heap_object_mem hrefc, get_heap_object_addr hrefc⟩
            · exact hsub a h
          have := ih (ref.addr :: visited) ((ref.addr, cur.addr) :: parent) (q ++ [ref])
            hrest' hq' hnd' hsub'
          revert this
          cases hsc : scanRefs cur rest (ref.addr :: visited)
              ((ref.addr, cur.addr) :: parent) (q ++ [ref]) with
          | mk visited' rest' =>
              obtain ⟨parent', q', res⟩ := rest'
              cases res with
              | none =>
                  intro ⟨a1, a2, a3, a4⟩
                  refine ⟨a1, a2, a3, ?_⟩
                  simp only [List.length_append, List.length_cons,
                    List.length_nil] at a4 ⊢
                  omega
              | some r => intro _; trivial

theorem bfsAux_total (g : Graph) :
    ∀ (fuel : Nat) (q : List RubyHeapObj) (visited : List Nat)
      (parent : List (Nat × Nat)),
      (∀ o ∈ q, get_heap_object g o.addr = some o ∧ o.addr ∈ visited) →
      visited.Nodup →
      (∀ a ∈ visited, ∃ o ∈ g.store, o.addr = a) →
      g.store.length + q.length ≤ visited.length + fuel →
      (bfsAux g fuel q visited parent).isSome := by
  intro fuel
  induction fuel with
  | zero =>
      intro q visited parent hq hnd hsub harith
      cases q with
      | nil => rfl
      | cons cur qrest =>
          exfalso
          have := nodup_store_length hnd hsub
          simp only [List.length_cons] at harith
          omega
  | succ fuel ih =>
      intro q visited parent hq hnd hsub harith
      cases q with
      | nil => rfl
      | cons cur qrest =>
          have hrest : ∀ o ∈ get_refs_from g cur, get_heap_object g o.addr = some o :=
            fun o ho => get_refs_from_canon ho
          have hqrest : ∀ o ∈ qrest, get_heap_object g o.addr = some o ∧ o.addr ∈ visited :=
            fun o ho => hq o (by simp [ho])
          have hlite := scanRefs_lite g cur (get_refs_from g cur) visited parent qrest
            hrest hqrest hnd hsub
          revert hlite
          cases hsc : scanRefs cur (get_refs_from g cur) visited parent qrest with
          | mk visited' rest' =>
              obtain ⟨parent', q', res⟩ := rest'
              cases res with
              | none =>
                  intro ⟨a1, a2, a3, a4⟩
                  have : bfsAux g (fuel + 1) (cur :: qrest) visited parent
                      = bfsAux g fuel q' visited' parent' := by
                    rw [bfsAux, hsc]
                  rw [this]
                  refine ih q' visited' parent' a3 a1 a2 ?_
                  simp only [List.length_cons] at harith
                  omega
              | some r =>
                  intro _
                  have : bfsAux g (fuel + 1) (cur :: qrest) visited parent
                      = some (.foundRoot r parent') := by
                    rw [bfsAux, hsc]
                  rw [this]
                  rfl

theorem cmd_rootpath_isSome (g : Graph) (a : Nat) : (cmd_rootpath g a).isSome := by
  cases ho : get_heap_object g a with
  | none => simp [cmd_rootpath, ho]
  | some obj =>
      have hobj : get_heap_object g obj.addr = some obj := get_heap_object_canon ho
      have htot := bfsAux_total g g.store.length [obj] [obj.addr] []
        (by intro o hm; simp only [List.mem_singleton] at hm; subst hm
            exact ⟨hobj, by simp⟩)
        (by simp)
        (by intro b hb; simp only [List.mem_singleton] at hb; subst hb
            exact ⟨obj, get_heap_object_mem ho, rfl⟩)
        (by simp only [List.length_cons, List.length_nil]; omega)
      cases hb : bfsAux g g.store.length [obj] [obj.addr] [] with
      | none => rw [hb] at htot; cases htot
      | some res => cases res <;> simp [cmd_rootpath, ho, hb]

/-- In any mid-scan state, every walk of length at most the frontier depth
ends at a visited address of no greater recorded depth. -/
theorem scan_min_bound {g : Graph} {s cur : RubyHeapObj} {d : Nat}
    {rest : List RubyHeapObj} {visited : List Nat} {parent : List (Nat × Nat)}
    {q : List RubyHeapObj} {D : Nat → Nat}
    (h : ScanInv g s cur d rest visited parent q D) :
    ∀ n, n ≤ d → ∀ x, WalkN g s.addr x n → x ∈ visited ∧ D x ≤ n := by
  intro n
  induction n with
  | zero =>
      intro _ x w
      have hx := w.zero_eq
      subst hx
      exact ⟨h.startMem, le_of_eq h.startDepth⟩
  | succ m ih =>
      intro hle x w
      obtain ⟨y, wy, hey⟩ := w.succ_elim
      obtain ⟨hymem, hyd⟩ := ih (by omega) y wy
      have hycur : y ≠ cur.addr := by
        intro hcontr
        rw [hcontr, h.curDepth] at hyd
        omega
      have hyq : ∀ o ∈ q, o.addr ≠ y := by
        intro o ho hcontr
        have := h.qDepthLo o ho
        rw [hcontr] at this
        omega
      obtain ⟨hxmem, hxd⟩ := h.othersExpanded y hymem hycur hyq x hey
      exact ⟨hxmem, by omega⟩

/-- At the moment a root is first discovered at depth `d + 1`, every walk
from the start to a non-start root has at least `d + 1` hops. -/
theorem scan_root_far {g : Graph} {s cur : RubyHeapObj} {d : Nat}
    {rest : List RubyHeapObj} {visited : List Nat} {parent : List (Nat × Nat)}
    {q : List RubyHeapObj} {D : Nat → Nat}
    (h : ScanInv g s cur d rest visited parent q D) :
    ∀ n b, isRootAddr g b → b ≠ s.addr → WalkN g s.addr b n → d + 1 ≤ n := by
  intro n b hroot hneq w
  by_contra hlt
  have hn : n ≤ d := by omega
  obtain ⟨hbmem, _⟩ := scan_min_bound h n hn b w
  obtain ⟨o, ho, hor⟩ := hroot
  have := h.visitedNoRoot b hbmem hneq o ho
  rw [this] at hor
  cases hor

/-- Reconstruction: following the predecessor map from a visited address `a`
yields the chain of `D a + 1` addresses from `a` back to the start, with a
graph edge between consecutive pairs (in the reverse direction, since the
chain is listed root-to-start). -/
theorem walkParent_spec (g : Graph) (s : RubyHeapObj) (parent : List (Nat × Nat))
    (visited : List Nat) (D : Nat → Nat)
    (hchain : ∀ a ∈ visited, a ≠ s.addr →
      ∃ p, List.find? (fun e => e.1 == a) parent = some (a, p) ∧ p ∈ visited ∧
        D a = D p + 1 ∧ edgeB g p a = true)
    (hnone : List.find? (fun e => e.1 == s.addr) parent = none)
    (hs0 : D s.addr = 0) :
    ∀ (fuel : Nat) (a : Nat), a ∈ visited → D a < fuel →
      (walkParent parent fuel a).length = D a + 1
      ∧ (walkParent parent fuel a).head? = some a
      ∧ (walkParent parent fuel a).getLast? = some s.addr
      ∧ List.Chain' (fun x y => edgeB g y x = true) (walkParent parent fuel a) := by
  intro fuel
  induction fuel with
  | zero => intro a _ hlt; omega
  | succ f ih =>
      intro a hmem hlt
      by_cases hsa : a = s.addr
      · subst hsa
        rw [walkParent, hnone]
        refine ⟨by simp [hs0], rfl, rfl, ?_⟩
        simp
      · obtain ⟨p, hfind, hpmem, hDa, hedge⟩ := hchain a hmem hsa
        have hwp : walkParent parent (f + 1) a = a :: walkParent parent f p := by
          rw [walkParent, hfind]
        have hplt : D p < f := by omega
        obtain ⟨ihlen, ihhead, ihlast, ihchain⟩ := ih p hpmem hplt
        have hne : walkParent parent f p ≠ [] := by
          intro hc
          rw [hc] at ihlen
          simp at ihlen
        obtain ⟨x, L', hL⟩ := List.exists_cons_of_ne_nil hne
        have hx : x = p := by
          rw [hL] at ihhead
          simpa using ihhead
        subst hx
        rw [hwp]
        refine ⟨?_, rfl, ?_, ?_⟩
        · simp only [List.length_cons, ihlen]
          omega
        · rw [hL] at ihlast ⊢
          simpa using ihlast
        · rw [hL] at ihchain ⊢
          exact List.chain'_cons.mpr ⟨hedge, ihchain⟩

theorem find?_key_ne {a key p : Nat} (parent : List (Nat × Nat)) (h : key ≠ a) :
    List.find? (fun e => e.1 == a) ((key, p) :: parent)
      = List.find? (fun e => e.1 == a) parent := by
  rw [List.find?_cons_of_neg]
  simpa using h

/-- The reference scan preserves the invariants: on normal completion the
post-state satisfies the loop invariant again (with the scanned node now
fully expanded); on root discovery the state certifies a shortest path. -/
theorem scanRefs_spec (g : Graph) (s cur : RubyHeapObj) (d : Nat) :
    ∀ (rest : List RubyHeapObj) (visited : List Nat) (parent : List (Nat × Nat))
      (q : List RubyHeapObj) (D : Nat → Nat),
      ScanInv g s cur d rest visited parent q D →
      (match scanRefs cur rest visited parent q with
       | (visited', parent', q', none) => ∃ D', BfsInv g s q' visited' parent' D'
       | (_, parent', _, some r) => SuccessState g s r parent') := by
  intro rest
  induction rest with
  | nil =>
      intro visited parent q D h
      simp only [scanRefs]
      refine ⟨D, ?_, h.startDepth, h.canonQ, h.qVisited, h.visitedWalk,
        h.visitedNoRoot, h.visitedCanon, h.parentChain, h.parentKeys,
        h.depthBound, ?_, ?_, h.qDepths⟩
      · exact h.startMem
      · intro a hmem hqa b hedge
        by_cases hac : a = cur.addr
        · subst hac
          rcases h.curExpanded b hedge with ⟨o, ho, _⟩ | ⟨hbv, hbd⟩
          · cases ho
          · exact ⟨hbv, by rw [h.curDepth]; exact hbd⟩
        · exact h.othersExpanded a hmem hac hqa b hedge
      · intro a hmem o hoq
        have h1 := h.visitedDepthLe a hmem
        have h2 := h.qDepthLo o hoq
        omega
  | cons ref rest ih =>
      intro visited parent q D h
      have hrefc : get_heap_object g ref.addr = some ref := (h.restEdges ref (by simp)).1
      have hrefe : edgeB g cur.addr ref.addr = true := (h.restEdges ref (by simp)).2
      by_cases hv : ref.addr ∈ visited
      · rw [scanRefs, if_pos hv]
        refine ih visited parent q D ?_
        refine ⟨h.startMem, h.startDepth, h.curCanon, h.curMem, h.curDepth, ?_,
          h.canonQ, h.qVisited, h.visitedWalk, h.visitedNoRoot, h.visitedCanon,
          h.parentChain, h.parentKeys, h.depthBound, h.visitedDepthLe,
          h.qDepthLo, h.qDepthHi, h.qDepths, ?_, h.othersExpanded⟩
        · intro o ho; exact h.restEdges o (by simp [ho])
        · intro b hedge
          rcases h.curExpanded b hedge with ⟨o, ho, hoa⟩ | hr
          · rcases List.mem_cons.mp ho with hor | hor
            · right
              rw [← hoa, hor]
              exact ⟨hv, h.visitedDepthLe ref.addr hv⟩
            · exact Or.inl ⟨o, hor, hoa⟩
          · exact Or.inr hr
      · rw [scanRefs, if_neg hv]
        have hsne : s.addr ≠ ref.addr := fun hc => hv (by rw [← hc]; exact h.startMem)
        have hcne : cur.addr ≠ ref.addr := fun hc => hv (by rw [← hc]; exact h.curMem)
        have hdcur : d ≤ parent.length := h.curDepth ▸ h.depthBound cur.addr h.curMem
        have hwalkref : WalkN g s.addr ref.addr (d + 1) :=
          (h.curDepth ▸ h.visitedWalk cur.addr h.curMem).snoc hrefe
        -- the updated ghost depth assignment
        set D' : Nat → Nat := fun x => if x = ref.addr then d + 1 else D x with hD'
        have hD'ref : D' ref.addr = d + 1 := by simp [hD']
        have hD'old : ∀ x, x ≠ ref.addr → D' x = D x := by
          intro x hx; simp [hD', hx]
        have hD'mem : ∀ x ∈ visited, D' x = D x := by
          intro x hx; exact hD'old x (fun hc => hv (hc ▸ hx))
        have hchain' : ∀ a ∈ ref.addr :: visited, a ≠ s.addr →
            ∃ p, List.find? (fun e => e.1 == a) ((ref.addr, cur.addr) :: parent)
                = some (a, p) ∧ p ∈ ref.addr :: visited ∧ D' a = D' p + 1
              ∧ edgeB g p a = true := by
          intro a hmem hane
          rcases List.mem_cons.mp hmem with hra | hra
          · subst hra
            refine ⟨cur.addr, ?_, List.mem_cons_of_mem _ h.curMem, ?_, hrefe⟩
            · exact List.find?_cons_of_pos _ (by simp)
            · rw [hD'ref, hD'mem cur.addr h.curMem, h.curDepth]
          · obtain ⟨p, hfind, hpmem, hDa, hedge⟩ := h.parentChain a hra hane
            refine ⟨p, ?_, List.mem_cons_of_mem _ hpmem, ?_, hedge⟩
            · rw [find?_key_ne parent (fun hc => hv (by rw [hc]; exact hra))]
              exact hfind
            · rw [hD'mem a hra, hD'mem p hpmem]
              exact hDa
        have hkeys' : ∀ e ∈ (ref.addr, cur.addr) :: parent,
            e.1 ∈ ref.addr :: visited ∧ e.1 ≠ s.addr := by
          intro e he
          rcases List.mem_cons.mp he with he1 | he1
          · subst he1
            exact ⟨by simp, fun hc => hsne hc.symm⟩
          · obtain ⟨h1, h2⟩ := h.parentKeys e he1
            exact ⟨List.mem_cons_of_mem _ h1, h2⟩
        have hbound' : ∀ a ∈ ref.addr :: visited,
            D' a ≤ ((ref.addr, cur.addr) :: parent).length := by
          intro a hmem
          simp only [List.length_cons]
          rcases List.mem_cons.mp hmem with hra | hra
          · subst hra; rw [hD'ref]; omega
          · rw [hD'mem a hra]
            have := h.depthBound a hra
            omega
        by_cases hr : ref.is_root
        · simp only [hr, if_true]
          refine ⟨D', ref.addr :: visited, hrefc, hr, fun hc => hv (hc ▸ h.startMem),
            by simp, List.mem_cons_of_mem _ h.startMem, ?_, hchain', ?_, hbound', ?_, ?_⟩
          · rw [hD'old s.addr hsne, h.startDepth]
          · rw [List.find?_eq_none]
            intro e he
            simpa using (hkeys' e he).2
          · rw [hD'ref]
            exact hwalkref
          · rw [hD'ref]
            exact fun n b hb hbne w => scan_root_far h n b hb hbne w
        · simp only [hr, Bool.false_eq_true, if_false]
          refine ih (ref.addr :: visited) ((ref.addr, cur.addr) :: parent)
            (q ++ [ref]) D' ?_
          have hrootfalse : ref.is_root = false := by
            cases hrr : ref.is_root
            · rfl
            · exact absurd hrr hr
          refine ⟨List.mem_cons_of_mem _ h.startMem,
            by rw [hD'old s.addr hsne, h.startDepth],
            h.curCanon, List.mem_cons_of_mem _ h.curMem,
            by rw [hD'old cur.addr hcne, h.curDepth], ?_, ?_, ?_, ?_, ?_, ?_,
            hchain', hkeys', hbound', ?_, ?_, ?_, ?_, ?_, ?_⟩
          · -- restEdges
            intro o ho; exact h.restEdges o (by simp [ho])
          · -- canonQ
            intro o ho
            rcases List.mem_append.mp ho with h1 | h1
            · exact h.canonQ o h1
            · simp only [List.mem_singleton] at h1
              subst h1; exact hrefc
          · -- qVisited
            intro o ho
            rcases List.mem_append.mp ho with h1 | h1
            · exact List.mem_cons_of_mem _ (h.qVisited o h1)
            · simp only [List.mem_singleton] at h1
              subst h1; simp
          · -- visitedWalk
            intro a hmem
            rcases List.mem_cons.mp hmem with hra | hra
            · subst hra; rw [hD'ref]; exact hwalkref
            · rw [hD'mem a hra]; exact h.visitedWalk a hra
          · -- visitedNoRoot
            intro a hmem hane o hoget
            rcases List.mem_cons.mp hmem with hra | hra
            · subst hra
              rw [hrefc] at hoget
              cases hoget
              exact hrootfalse
            · exact h.visitedNoRoot a hra hane o hoget
          · -- visitedCanon
            intro a hmem
            rcases List.mem_cons.mp hmem with hra | hra
            · subst hra; exact ⟨ref, hrefc⟩
            · exact h.visitedCanon a hra
          · -- visitedDepthLe
            intro a hmem
            rcases List.mem_cons.mp hmem with hra | hra
            · subst hra; rw [hD'ref]
            · rw [hD'mem a hra]; exact h.visitedDepthLe a hra
          · -- qDepthLo
            intro o ho
            rcases List.mem_append.mp ho with h1 | h1
            · rw [hD'mem o.addr (h.qVisited o h1)]
              exact h.qDepthLo o h1
            · simp only [List.mem_singleton] at h1
              subst h1; rw [hD'ref]; omega
          · -- qDepthHi
            intro o ho
            rcases List.mem_append.mp ho with h1 | h1
            · rw [hD'mem o.addr (h.qVisited o h1)]
              exact h.qDepthHi o h1
            · simp only [List.mem_singleton] at h1
              subst h1; rw [hD'ref]
          · -- qDepths
            rw [List.map_append]
            rw [List.pairwise_append]
            refine ⟨?_, by simp, ?_⟩
            · have : q.map (fun o => D' o.addr) = q.map (fun o => D o.addr) :=
                List.map_congr_left (fun o ho => hD'mem o.addr (h.qVisited o ho))
              rw [this]
              exact h.qDepths
            · intro x hx y hy
              simp only [List.map_cons, List.map_nil, List.mem_singleton] at hy
              obtain ⟨o, ho, hox⟩ := List.mem_map.mp hx
              subst hy
              rw [hD'ref]
              rw [← hox, hD'mem o.addr (h.qVisited o ho)]
              have h1 := h.qDepthLo o ho
              have h2 := h.qDepthHi o ho
              exact ⟨h2, by omega⟩
          · -- curExpanded
            intro b hedge
            rcases h.curExpanded b hedge with ⟨o, ho, hoa⟩ | ⟨hbv, hbd⟩
            · rcases List.mem_cons.mp ho with hor | hor
              · right
                rw [← hoa, hor, hD'ref]
                exact ⟨by simp, le_refl _⟩
              · exact Or.inl ⟨o, hor, hoa⟩
            · right
              rw [hD'mem b hbv]
              exact ⟨List.mem_cons_of_mem _ hbv, hbd⟩
          · -- othersExpanded
            intro a hmem hane hqa b hedge
            rcases List.mem_cons.mp hmem with hra | hra
            · subst hra
              exact absurd rfl (hqa ref (by simp))
            · have hqa' : ∀ o ∈ q, o.addr ≠ a := fun o ho => hqa o (by simp [ho])
              obtain ⟨hbv, hbd⟩ := h.othersExpanded a hra hane hqa' b hedge
              rw [hD'mem a hra, hD'mem b hbv]
              exact ⟨List.mem_cons_of_mem _ hbv, hbd⟩

/-- A walk from a member of a successor-closed address set ends inside it. -/
theorem walk_closed_aux (g : Graph) (S : List Nat)
    (hcl : ∀ x ∈ S, ∀ y, edgeB g x y = true → y ∈ S) :
    ∀ (x y n : Nat), x ∈ S → WalkN g x y n → y ∈ S := by
  intro x y n hx w
  revert hx
  induction w with
  | refl a => exact id
  | step e _ ih =>
      intro ha
      exact ih (hcl _ ha _ e)

/-- When the queue has drained without a discovery, the visited set is closed
under resolved references and contains no non-start root, so no non-start
root is reachable at all. -/
theorem bfsInv_nil_noroot {g : Graph} {s : RubyHeapObj} {visited : List Nat}
    {parent : List (Nat × Nat)} {D : Nat → Nat}
    (h : BfsInv g s [] visited parent D) : NoRootReachable g s := by
  rintro ⟨n, b, hroot, hneq, hw⟩
  have hclosed : ∀ x ∈ visited, ∀ y, edgeB g x y = true → y ∈ visited := by
    intro x hx y hy
    exact (h.expanded x hx (by intro o ho; cases ho) y hy).1
  have hbmem : b ∈ visited :=
    walk_closed_aux g visited hclosed s.addr b n h.startMem hw
  obtain ⟨o, ho, hor⟩ := hroot
  have := h.visitedNoRoot b hbmem hneq o ho
  rw [this] at hor
  cases hor

/-- The invariant holds on the initial BFS state: the start node is seeded
into the queue and visited set (before any root test) at depth 0. -/
theorem bfsInv_init (g : Graph) (obj : RubyHeapObj)
    (ho : get_heap_object g obj.addr = some obj) :
    BfsInv g obj [obj] [obj.addr] [] (fun _ => 0) := by
  refine ⟨by simp, rfl, ?_, ?_, ?_, ?_, ?_, ?_, ?_, ?_, ?_, ?_, ?_⟩
  · intro o hm; simp only [List.mem_singleton] at hm; subst hm; exact ho
  · intro o hm; simp only [List.mem_singleton] at hm; subst hm; simp
  · intro a hm; simp only [List.mem_singleton] at hm; subst hm
    exact WalkN.refl obj.addr
  · intro a hm hne; simp only [List.mem_singleton] at hm; exact absurd hm hne
  · intro a hm; simp only [List.mem_singleton] at hm; subst hm; exact ⟨obj, ho⟩
  · intro a hm hne; simp only [List.mem_singleton] at hm; exact absurd hm hne
  · intro e he; cases he
  · intro a _; exact Nat.zero_le _
  · intro a hm hq b hedge
    simp only [List.mem_singleton] at hm
    subst hm
    exact absurd rfl (hq obj (by simp))
  · intro a _ o _; omega
  · simp

/-- Popping the queue head turns the loop invariant into the scan invariant
for that node's reference list. -/
theorem scanInv_of_pop {g : Graph} {s cur : RubyHeapObj} {qrest : List RubyHeapObj}
    {visited : List Nat} {parent : List (Nat × Nat)} {D : Nat → Nat}
    (h : BfsInv g s (cur :: qrest) visited parent D) :
    ScanInv g s cur (D cur.addr) (get_refs_from g cur) visited parent qrest D := by
  have hcur : get_heap_object g cur.addr = some cur := h.canonQ cur (by simp)
  have hcmem : cur.addr ∈ visited := h.qVisited cur (by simp)
  have hpair := h.qDepths
  rw [List.map_cons, List.pairwise_cons] at hpair
  obtain ⟨hhead, htail⟩ := hpair
  refine ⟨h.startMem, h.startDepth, hcur, hcmem, rfl, ?_, ?_, ?_, h.visitedWalk,
    h.visitedNoRoot, h.visitedCanon, h.parentChain, h.parentKeys, h.depthBound,
    ?_, ?_, ?_, htail, ?_, ?_⟩
  · intro o ho
    exact ⟨get_refs_from_canon ho, get_refs_from_edge hcur ho⟩
  · intro o ho; exact h.canonQ o (by simp [ho])
  · intro o ho; exact h.qVisited o (by simp [ho])
  · intro a hm; exact h.visitedDepth a hm cur (by simp)
  · intro o ho
    exact (hhead (D o.addr) (List.mem_map.mpr ⟨o, ho, rfl⟩)).1
  · intro o ho
    exact (hhead (D o.addr) (List.mem_map.mpr ⟨o, ho, rfl⟩)).2
  · intro b hedge
    obtain ⟨ref, hm, hab⟩ := edge_mem_get_refs_from hcur hedge
    exact Or.inl ⟨ref, hm, hab⟩
  · intro a hm hane hqa b hedge
    refine h.expanded a hm ?_ b hedge
    intro o ho
    rcases List.mem_cons.mp ho with h1 | h1
    · subst h1; exact fun hc => hane hc.symm
    · exact hqa o h1

/-- Running the BFS work loop from any state satisfying the invariant ends
either in fuel exhaustion, or in "no path" with no non-start root reachable,
or in a success state certifying a shortest root path. -/
theorem bfsAux_run (g : Graph) (s : RubyHeapObj) :
    ∀ (fuel : Nat) (q : List RubyHeapObj) (visited : List Nat)
      (parent : List (Nat × Nat)) (D : Nat → Nat),
      BfsInv g s q visited parent D →
      (match bfsAux g fuel q visited parent with
       | none => True
       | some .noPath => NoRootReachable g s
       | some (.foundRoot r parent') => SuccessState g s r parent') := by
  intro fuel
  induction fuel with
  | zero =>
      intro q visited parent D h
      cases q with
      | nil =>
          simp only [bfsAux]
          exact bfsInv_nil_noroot h
      | cons cur qrest => trivial
  | succ fuel ih =>
      intro q visited parent D h
      cases q with
      | nil =>
          simp only [bfsAux]
          exact bfsInv_nil_noroot h
      | cons cur qrest =>
          have hscan := scanRefs_spec g s cur (D cur.addr)
            (get_refs_from g cur) visited parent qrest D (scanInv_of_pop h)
          revert hscan
          cases hsc : scanRefs cur (get_refs_from g cur) visited parent qrest with
          | mk visited' rest' =>
              obtain ⟨parent', q', res⟩ := rest'
              cases res with
              | none =>
                  intro ⟨D', hinv'⟩
                  have heq : bfsAux g (fuel + 1) (cur :: qrest) visited parent
                      = bfsAux g fuel q' visited' parent' := by
                    rw [bfsAux, hsc]
                  rw [heq]
                  exact ih q' visited' parent' D' hinv'
              | some r =>
                  intro hsucc
                  have heq : bfsAux g (fuel + 1) (cur :: qrest) visited parent
                      = some (.foundRoot r parent') := by
                    rw [bfsAux, hsc]
                  rw [heq]
                  exact hsucc

/-- A successful BFS run certifies a success state. -/
theorem cmd_rootpath_success_state (g : Graph) (obj r : RubyHeapObj)
    (parent : List (Nat × Nat)) (ho : get_heap_object g obj.addr = some obj)
    (hb : bfsAux g g.store.length [obj] [obj.addr] [] = some (.foundRoot r parent)) :
    SuccessState g obj r parent := by
  have hrun := bfsAux_run g obj g.store.length [obj] [obj.addr] [] (fun _ => 0)
    (bfsInv_init g obj ho)
  rw [hb] at hrun
  exact hrun

/-- An exhausted BFS run certifies that no non-start root is reachable. -/
theorem cmd_rootpath_nopath_state (g : Graph) (obj : RubyHeapObj)
    (ho : get_heap_object g obj.addr = some obj)
    (hb : bfsAux g g.store.length [obj] [obj.addr] [] = some .noPath) :
    NoRootReachable g obj := by
  have hrun := bfsAux_run g obj g.store.length [obj] [obj.addr] [] (fun _ => 0)
    (bfsInv_init g obj ho)
  rw [hb] at hrun
  exact hrun

/-- Evaluation of `cmd_rootpath` once the argument resolves. -/
theorem cmd_rootpath_eq_some (g : Graph) (a : Nat) (obj : RubyHeapObj)
    (ho : get_heap_object g a = some obj) :
    cmd_rootpath g a
      = match bfsAux g g.store.length [obj] [obj.addr] [] with
        | none => none
        | some .noPath => some (.noPath obj.addr)
        | some (.foundRoot r parent) =>
            some (.path (walkParent parent (parent.length + 1) r.addr)) := by
  rw [cmd_rootpath, ho]

/-- Master lemma about a successful `cmd_rootpath`: the reported sequence
starts at a root distinct from the queried address, ends at the queried
address, consecutive entries are backward graph edges, and its hop count is
the minimum number of hops of any walk from the queried address to a
non-start root. -/
theorem rootpath_path_spec (g : Graph) (a : Nat) (seq : List Nat)
    (h : cmd_rootpath g a = some (.path seq)) :
    ∃ r, seq.head? = some r ∧ seq.getLast? = some a ∧ isRootAddr g r ∧ r ≠ a ∧
      List.Chain' (fun x y => edgeB g y x = true) seq ∧
      WalkN g a r (seq.length - 1) ∧
      (∀ n b, isRootAddr g b → b ≠ a → WalkN g a b n → seq.length - 1 ≤ n) := by
  cases ho : get_heap_object g a with
  | none => rw [cmd_rootpath, ho] at h; cases h
  | some obj =>
      have haddr : obj.addr = a := get_heap_object_addr ho
      have hobj : get_heap_object g obj.addr = some obj := get_heap_object_canon ho
      cases hb : bfsAux g g.store.length [obj] [obj.addr] [] with
      | none =>
          exfalso
          have heval : cmd_rootpath g a = none := by
            rw [cmd_rootpath_eq_some g a obj ho, hb]
          rw [heval] at h; cases h
      | some res =>
          cases res with
          | noPath =>
              exfalso
              have heval : cmd_rootpath g a = some (.noPath obj.addr) := by
                rw [cmd_rootpath_eq_some g a obj ho, hb]
              rw [heval] at h
              injection h with h'
              cases h'
          | foundRoot r parent =>
              have heval : cmd_rootpath g a
                  = some (.path (walkParent parent (parent.length + 1) r.addr)) := by
                rw [cmd_rootpath_eq_some g a obj ho, hb]
              rw [heval] at h
              have hseq : seq = walkParent parent (parent.length + 1) r.addr := by
                injection h with h'
                injection h' with h''
                exact h''.symm
              obtain ⟨D, visited, hrc, hrroot, hrne, hrmem, hsmem, hs0, hchain,
                hnone, hbound, hwalk, hmin⟩ :=
                cmd_rootpath_success_state g obj r parent hobj hb
              have hfuel : D r.addr < parent.length + 1 :=
                Nat.lt_succ_of_le (hbound r.addr hrmem)
              obtain ⟨hlen, hhead, hlast, hchain'⟩ :=
                walkParent_spec g obj parent visited D hchain hnone hs0
                  (parent.length + 1) r.addr hrmem hfuel
              rw [← hseq] at hlen hhead hlast hchain'
              have hlen' : seq.length - 1 = D r.addr := by omega
              refine ⟨r.addr, hhead, by rw [hlast, haddr], ⟨r, hrc, hrroot⟩,
                by rw [← haddr]; exact hrne, hchain', ?_, ?_⟩
              · rw [hlen', ← haddr]
                exact hwalk
              · intro n b hb' hbne w
                rw [hlen']
                exact hmin n b hb' (by rw [← haddr] at hbne; exact hbne)
                  (by rw [← haddr] at w; exact w)

/-- Master lemma: `cmd_rootpath` reports "no path" exactly when the queried
address resolves and no root-flagged node other than the queried one is
reachable from it along resolved outgoing references. -/
theorem rootpath_nopath_spec (g : Graph) (a : Nat) :
    cmd_rootpath g a = some (.noPath a) ↔
      ((∃ o, get_heap_object g a = some o)
        ∧ ¬ ∃ n b, isRootAddr g b ∧ b ≠ a ∧ WalkN g a b n) := by
  constructor
  · intro h
    cases ho : get_heap_object g a with
    | none => rw [cmd_rootpath, ho] at h; cases h
    | some obj =>
        have haddr : obj.addr = a := get_heap_object_addr ho
        have hobj : get_heap_object g obj.addr = some obj := get_heap_object_canon ho
        refine ⟨⟨obj, rfl⟩, ?_⟩
        cases hb : bfsAux g g.store.length [obj] [obj.addr] [] with
        | none =>
            exfalso
            have heval : cmd_rootpath g a = none := by
              rw [cmd_rootpath_eq_some g a obj ho, hb]
            rw [heval] at h; cases h
        | some res =>
            cases res with
            | foundRoot r parent =>
                exfalso
                have heval : cmd_rootpath g a
                    = some (.path (walkParent parent (parent.length + 1) r.addr)) := by
                  rw [cmd_rootpath_eq_some g a obj ho, hb]
                rw [heval] at h
                injection h with h'
                cases h'
            | noPath =>
                have hnr := cmd_rootpath_nopath_state g obj hobj hb
                unfold NoRootReachable at hnr
                rw [haddr] at hnr
                exact hnr
  · rintro ⟨⟨obj, ho⟩, hno⟩
    have haddr : obj.addr = a := get_heap_object_addr ho
    have hobj : get_heap_object g obj.addr = some obj := get_heap_object_canon ho
    cases hb : bfsAux g g.store.length [obj] [obj.addr] [] with
    | none =>
        exfalso
        have hsome := cmd_rootpath_isSome g a
        have heval : cmd_rootpath g a = none := by
          rw [cmd_rootpath_eq_some g a obj ho, hb]
        rw [heval] at hsome
        cases hsome
    | some res =>
        cases res with
        | noPath =>
            have heval : cmd_rootpath g a = some (.noPath obj.addr) := by
              rw [cmd_rootpath_eq_some g a obj ho, hb]
            rw [heval, haddr]
        | foundRoot r parent =>
            exfalso
            obtain ⟨D, visited, hrc, hrroot, hrne, hrmem, _, _, _, _, _, hwalk, _⟩ :=
              cmd_rootpath_success_state g obj r parent hobj hb
            refine hno ⟨D r.addr, r.addr, ⟨r, hrc, hrroot⟩, ?_, ?_⟩
            · rw [← haddr]; exact hrne
            · rw [← haddr]; exact hwalk

theorem gSolo_no_other_root :
    ¬ ∃ n b, isRootAddr gSolo b ∧ b ≠ 7 ∧ WalkN gSolo 7 b n := by
  rintro ⟨n, b, hroot, hneq, hw⟩
  have hcl : ∀ x ∈ [7], ∀ y, edgeB gSolo x y = true → y ∈ [7] := by
    intro x hx y hy
    obtain ⟨o, o', h1, h2, _⟩ := edgeB_elim hy
    simp only [List.mem_singleton] at hx
    subst hx
    have ho : o = ⟨7, 0, 16, true, []⟩ := by
      have : get_heap_object gSolo 7 = some ⟨7, 0, 16, true, []⟩ := rfl
      rw [this] at h1
      exact (Option.some_inj.mp h1).symm
    rw [ho] at h2
    cases h2
  have := walk_closed_aux gSolo [7] hcl 7 b n (by simp) hw
  simp only [List.mem_singleton] at this
  exact hneq this

/-! ### Claim theorems for the root-path finder -/
/-- C1 (amended): when `cmd_rootpath` succeeds, the reported sequence is a
path (consecutive entries being graph edges taken backward), reported in
root-to-start order — it starts at a discovered root and ends at the queried
node — and its hop count (the BFS depth at which the root was discovered)
is minimal over all walks, in the search direction, from the queried node to
any root-flagged node other than the queried node itself. -/
theorem rootpath_shortest (g : Graph) (a : Nat) (seq : List Nat)
    (h : cmd_rootpath g a = some (.path seq)) :
    ∃ r, seq.head? = some r ∧ seq.getLast? = some a ∧ isRootAddr g r ∧ r ≠ a ∧
      List.Chain' (fun x y => edgeB g y x = true) seq ∧
      WalkN g a r (seq.length - 1) ∧
      (∀ n b, isRootAddr g b → b ≠ a → WalkN g a b n → seq.length - 1 ≤ n) :=
  rootpath_path_spec g a seq h

/-- Witness for C1 at a concrete graph: `rootpath 2` on `gWitness` returns
the sequence `[1, 2]`, and the theorem applies to it. -/
theorem rootpath_shortest_witness :
    cmd_rootpath gWitness 2 = some (.path [1, 2])
    ∧ ∃ r, ([1, 2] : List Nat).head? = some r
        ∧ ([1, 2] : List Nat).getLast? = some 2
        ∧ isRootAddr gWitness r ∧ r ≠ 2
        ∧ List.Chain' (fun x y => edgeB gWitness y x = true) [1, 2]
        ∧ WalkN gWitness 2 r (([1, 2] : List Nat).length - 1)
        ∧ (∀ n b, isRootAddr gWitness b → b ≠ 2 → WalkN gWitness 2 b n →
            (([1, 2] : List Nat).length - 1) ≤ n) :=
  ⟨by decide, rootpath_shortest gWitness 2 [1, 2] (by decide)⟩

/-- C1 counterexample, refuting the claim as stated (minimality over paths
to ANY root-flagged node): on `gRootStart` the queried node 1 is itself
root-flagged, so the zero-hop walk to the root-flagged node 1 exists, yet
`cmd_rootpath` returns the one-hop sequence `[2, 1]`. -/
theorem rootpath_shortest_cex :
    ¬ ∀ (seq : List Nat), cmd_rootpath gRootStart 1 = some (.path seq) →
      ∀ n b, isRootAddr gRootStart b → WalkN gRootStart 1 b n →
        seq.length - 1 ≤ n := by
  intro hclaim
  have h1 := hclaim [2, 1] (by decide) 0 1
    ⟨⟨1, 0, 8, true, [2]⟩, by decide, rfl⟩ (WalkN.refl 1)
  exact absurd h1 (by decide)

/-- C2: the root-path search follows the dequeued node's outgoing references
(`out_refs`), so it succeeds only when a root-flagged node is reachable from
the queried node by following resolved `out_refs` forward. -/
theorem rootpath_follows_outgoing (g : Graph) (a : Nat) (seq : List Nat)
    (h : cmd_rootpath g a = some (.path seq)) :
    ∃ b n, isRootAddr g b ∧ WalkN g a b n := by
  obtain ⟨r, _, _, hroot, _, _, hwalk, _⟩ := rootpath_path_spec g a seq h
  exact ⟨r, seq.length - 1, hroot, hwalk⟩

/-- Witness for C2 at a concrete graph. -/
theorem rootpath_follows_outgoing_witness :
    ∃ b n, isRootAddr gWitness b ∧ WalkN gWitness 2 b n :=
  rootpath_follows_outgoing gWitness 2 [1, 2] (by decide)

/-- C6: `cmd_rootpath` reports the "no path to root" outcome exactly when
the BFS queue empties without discovering a root-flagged node — equivalently,
for a resolvable queried address, exactly when no root-flagged node other
than the queried one is reachable along resolved outgoing references; it is
a reported outcome (a value, never a crash), in particular for nodes
disconnected from all roots. -/
theorem rootpath_nopath_iff (g : Graph) (a : Nat) :
    cmd_rootpath g a = some (.noPath a) ↔
      ((∃ o, get_heap_object g a = some o)
        ∧ ¬ ∃ n b, isRootAddr g b ∧ b ≠ a ∧ WalkN g a b n) :=
  rootpath_nopath_spec g a

/-- C8: `cmd_rootpath` is deterministic — two runs against the same
unchanged graph produce the identical outcome. -/
theorem rootpath_deterministic (g : Graph) (a : Nat)
    (r1 r2 : Option RootPathOutcome)
    (h1 : cmd_rootpath g a = r1) (h2 : cmd_rootpath g a = r2) : r1 = r2 :=
  h1 ▸ h2

/-- Witness for C8 at a concrete graph. -/
theorem rootpath_deterministic_witness :
    (some (RootPathOutcome.path [1, 2]) : Option RootPathOutcome)
      = some (RootPathOutcome.path [1, 2]) :=
  rootpath_deterministic gWitness 2 (some (RootPathOutcome.path [1, 2]))
    (some (RootPathOutcome.path [1, 2])) (by decide) (by decide)

/-- C9: the start node is seeded into the visited set and never tested for
root-ness, so a successful search always reports a root other than the
queried node, and a root-flagged query from which no other root is
discoverable gets the "no path to root" outcome. -/
theorem rootpath_root_start (g : Graph) (a : Nat) :
    (∀ seq, cmd_rootpath g a = some (.path seq) →
        ∃ r, seq.head? = some r ∧ isRootAddr g r ∧ r ≠ a)
    ∧ (∀ o, get_heap_object g a = some o → o.is_root = true →
        (¬ ∃ n b, isRootAddr g b ∧ b ≠ a ∧ WalkN g a b n) →
        cmd_rootpath g a = some (.noPath a)) := by
  constructor
  · intro seq h
    obtain ⟨r, hhead, _, hroot, hneq, _, _, _⟩ := rootpath_path_spec g a seq h
    exact ⟨r, hhead, hroot, hneq⟩
  · intro o ho _ hno
    exact (rootpath_nopath_spec g a).mpr ⟨⟨o, ho⟩, hno⟩

/-- Witness for C9: on `gRootStart` the root-flagged query 1 still yields a
different root (2); on `gSolo` the lone root 7 (no other root discoverable)
gets the "no path" outcome. -/
theorem rootpath_root_start_witness :
    (∃ r, ([2, 1] : List Nat).head? = some r ∧ isRootAddr gRootStart r ∧ r ≠ 1)
    ∧ cmd_rootpath gSolo 7 = some (.noPath 7) :=
  ⟨(rootpath_root_start gRootStart 1).1 [2, 1] (by decide),
   (rootpath_root_start gSolo 7).2 ⟨7, 0, 16, true, []⟩ (by decide) rfl
     gSolo_no_other_root⟩

/-- C10: for every finite graph (cycles and duplicate references included)
the root-path BFS terminates: every node is inserted into the visited set
before being enqueued and is therefore enqueued at most once, so the loop
performs at most one dequeue per stored node — running `bfsAux` with
`g.store.length` as its iteration budget never exhausts it, and
`cmd_rootpath` always returns an outcome. -/
theorem rootpath_terminates (g : Graph) (a : Nat) : (cmd_rootpath g a).isSome :=
  cmd_rootpath_isSome g a

/-- C5: for every stored node that is root-flagged or unreachable from any
root, `cmd_idom` and `cmd_dominators` both report a distinct
undefined/empty outcome — always a value (never a crash) and never a
dominator identity or nonempty dominated list passed off as a result. -/
theorem idom_dominators_undefined (g : Graph) (idom : Nat → Option Nat)
    (domSet : Nat → List Nat) (hI : IdomIndexWf g idom) (hD : DomSetWf g domSet)
    (a : Nat) (o : RubyHeapObj) (ho : get_heap_object g a = some o)
    (hcase : o.is_root = true ∨ ¬ ReachableFromRoot g a) :
    (cmd_idom g idom a = .undefinedForRoot ∨ cmd_idom g idom a = .noDominator)
    ∧ (cmd_dominators g domSet a = .undefinedForRoot
        ∨ cmd_dominators g domSet a = .emptySet) := by
  rcases hcase with hroot | hunreach
  · exact ⟨Or.inl (by simp [cmd_idom, ho, hroot]),
      Or.inl (by simp [cmd_dominators, ho, hroot])⟩
  · have hidom : idom a = none := by
      cases hi : idom a with
      | none => rfl
      | some d =>
          exact absurd ((hI a o ho).mp (by rw [hi]; rfl)) hunreach
    have hds : domSet a = [] := hD a hunreach
    cases hroot : o.is_root
    · exact ⟨Or.inr (by simp [cmd_idom, ho, hroot, hidom]),
        Or.inr (by simp [cmd_dominators, ho, hroot, hds])⟩
    · exact ⟨Or.inl (by simp [cmd_idom, ho, hroot]),
        Or.inl (by simp [cmd_dominators, ho, hroot])⟩

/-! ### Concrete dominator index for the witness -/
/-- The only root-flagged address of `gWitness` is 1. -/
theorem gWitness_root_only (r : Nat) (h : isRootAddr gWitness r) : r = 1 := by
  obtain ⟨o, ho, hor⟩ := h
  have hmem := get_heap_object_mem ho
  have haddr := get_heap_object_addr ho
  simp only [gWitness, List.mem_cons, List.not_mem_nil, or_false] at hmem
  rcases hmem with rfl | rfl | rfl
  · simpa using haddr.symm
  · simp at hor
  · simp at hor

/-- Nodes 2 and 3 of `gWitness` are unreachable from its only root. -/
theorem gWitness_unreachable (a : Nat) (ha : a = 2 ∨ a = 3) :
    ¬ ReachableFromRoot gWitness a := by
  rintro ⟨r, n, hroot, hw⟩
  have hr1 : r = 1 := gWitness_root_only r hroot
  subst hr1
  have hcl : ∀ x ∈ [1], ∀ y, edgeB gWitness x y = true → y ∈ [1] := by
    intro x hx y hy
    obtain ⟨o, o', h1, h2, _⟩ := edgeB_elim hy
    simp only [List.mem_singleton] at hx
    subst hx
    have ho1 : o = ⟨1, 0, 8, true, []⟩ := by
      have he : get_heap_object gWitness 1 = some ⟨1, 0, 8, true, []⟩ := rfl
      rw [he] at h1
      exact (Option.some_inj.mp h1).symm
    rw [ho1] at h2
    cases h2
  have := walk_closed_aux gWitness [1] hcl 1 a n (by simp) hw
  simp only [List.mem_singleton] at this
  omega

theorem idomW_wf : IdomIndexWf gWitness idomW := by
  intro a o ho
  have hmem := get_heap_object_mem ho
  have haddr := get_heap_object_addr ho
  simp only [gWitness, List.mem_cons, List.not_mem_nil, or_false] at hmem
  rcases hmem with rfl | rfl | rfl <;> simp at haddr <;> subst haddr
  · exact ⟨fun _ => ⟨1, 0, ⟨⟨1, 0, 8, true, []⟩, rfl, rfl⟩, WalkN.refl 1⟩,
      fun _ => rfl⟩
  · rw [show idomW 2 = none from rfl]
    simp only [Option.isSome_none, Bool.false_eq_true, false_iff]
    exact gWitness_unreachable 2 (Or.inl rfl)
  · rw [show idomW 3 = none from rfl]
    simp only [Option.isSome_none, Bool.false_eq_true, false_iff]
    exact gWitness_unreachable 3 (Or.inr rfl)

/-- Witness for C5: node 3 of `gWitness` is non-root and unreachable; both
commands report their distinct empty outcome. -/
theorem idom_dominators_undefined_witness :
    (cmd_idom gWitness idomW 3 = .undefinedForRoot
      ∨ cmd_idom gWitness idomW 3 = .noDominator)
    ∧ (cmd_dominators gWitness domSetW 3 = .undefinedForRoot
      ∨ cmd_dominators gWitness domSetW 3 = .emptySet) :=
  idom_dominators_undefined gWitness idomW domSetW idomW_wf (fun _ _ => rfl)
    3 ⟨3, 0, 8, false, []⟩ (by decide)
    (Or.inr (gWitness_unreachable 3 (Or.inr rfl)))

/-- C7: the only aborting condition is a missing/unopenable primary snapshot
at startup; after a successful startup every command — including each
query-time failure (unknown identity, operation undefined for a root, no
path to root, unopenable diff target) — yields a reported outcome and the
session continues with the subsequent commands (only `quit` ends it). -/
theorem only_startup_fatal (g : Graph) (idom : Nat → Option Nat)
    (domSet : Nat → List Nat) :
    (∀ arg, (∃ e, startup arg = .error e) ↔ (arg = none ∨ arg = some none))
    ∧ (∀ c rest, c ≠ Cmd.quit →
        session g idom domSet (c :: rest)
          = execute_command g idom domSet c :: session g idom domSet rest)
    ∧ (∀ cmds, Cmd.quit ∉ cmds →
        (session g idom domSet cmds).length = cmds.length)
    ∧ (∀ a, get_heap_object g a = none →
        execute_command g idom domSet (.printCmd a) = .printUnknownId
        ∧ execute_command g idom domSet (.rootpathCmd a)
            = .rootpathReport (cmd_rootpath g a))
    ∧ execute_command g idom domSet (.diffCmd none) = .diffOpenError := by
  refine ⟨?_, ?_, ?_, ?_, rfl⟩
  · intro arg
    constructor
    · rintro ⟨e, he⟩
      match arg with
      | none => exact Or.inl rfl
      | some none => exact Or.inr rfl
      | some (some g') => rw [startup] at he; cases he
    · rintro (rfl | rfl)
      · exact ⟨_, rfl⟩
      · exact ⟨_, rfl⟩
  · intro c rest hne
    rw [session, if_neg hne]
  · intro cmds hq
    induction cmds with
    | nil => rfl
    | cons c rest ih =>
        have hcne : c ≠ Cmd.quit := fun hc => hq (by rw [hc]; simp)
        rw [session, if_neg hcne, List.length_cons, List.length_cons,
          ih (fun hm => hq (by simp [hm]))]
  · intro a ha
    exact ⟨by rw [execute_command, ha], rfl⟩

/-- Witness for C7: a failing diff (unopenable target) is reported and the
session still processes the following command; an unknown identity is a
reported outcome; the missing-file startup is the error case. -/
theorem only_startup_fatal_witness :
    ((∃ e, startup none = .error e)
      ↔ ((none : Option (Option Graph)) = none
          ∨ (none : Option (Option Graph)) = some none))
    ∧ session gWitness idomW domSetW [Cmd.diffCmd none, Cmd.summaryCmd]
        = execute_command gWitness idomW domSetW (Cmd.diffCmd none)
          :: session gWitness idomW domSetW [Cmd.summaryCmd]
    ∧ (session gWitness idomW domSetW [Cmd.diffCmd none, Cmd.summaryCmd]).length = 2
    ∧ execute_command gWitness idomW domSetW (Cmd.printCmd 99) = .printUnknownId :=
  ⟨(only_startup_fatal gWitness idomW domSetW).1 none,
   (only_startup_fatal gWitness idomW domSetW).2.1 (Cmd.diffCmd none)
     [Cmd.summaryCmd] (by decide),
   (only_startup_fatal gWitness idomW domSetW).2.2.1
     [Cmd.diffCmd none, Cmd.summaryCmd] (by decide),
   ((only_startup_fatal gWitness idomW domSetW).2.2.2.1 99 (by decide)).1⟩

/-- Witness for C3 on concrete data: only the new non-root record is
emitted, exactly once, verbatim. -/
theorem diff_emits_new_nonroot_exactly_witness :
    cmd_diff gWitness diffStreamW
      = (diffStreamW.filter (diffEmit gWitness)).map (fun r => r.json)
    ∧ ∀ r ∈ diffStreamW,
        ((get_heap_object gWitness r.obj.addr).isSome →
          r.json ∉ cmd_diff gWitness diffStreamW)
        ∧ (r.obj.is_root = true → r.json ∉ cmd_diff gWitness diffStreamW)
        ∧ (r.obj.is_root = false → get_heap_object gWitness r.obj.addr = none →
            (cmd_diff gWitness diffStreamW).count r.json = 1) :=
  diff_emits_new_nonroot_exactly gWitness diffStreamW (by decide)

end Harb
